import Mathlib

/-!
Shallow embedding of `syntaxrules/syntaxtree.py` (the triple-store based
syntax-tree manipulation library) and proofs about its specified behavior.

Python dicts are modelled as insertion-ordered association lists; `Node`
objects (flexible records) are modelled by their `__dict__`, i.e. an
association list from attribute name to string value.  Fallible code
(`KeyError`, `AttributeError`) is modelled with `Except String`.
-/

set_option autoImplicit false

namespace SyntaxRules

/-- `BASE = "http://example.com/jitp/"` from the source. -/
def BASE : String := "http://example.com/jitp/"

/-- `RDF_TYPE` from the source. -/
def RDF_TYPE : String := "http://www.w3.org/1999/02/22-rdf-syntax-ns#type"

/-- An RDF object: a literal value or a reference to a node (by URI). -/
inductive Obj where
  | lit (v : String)
  | node (u : String)
deriving DecidableEq, Repr

/-- A raw RDF fact `(subject, predicate, object)`; the predicate is the full
URI string, as returned by the store. -/
structure Fact where
  s : String
  p : String
  o : Obj
deriving DecidableEq, Repr

/-! ### Association lists (Python dict / object `__dict__` model) -/

/-- First-match lookup in an association list (Python `d[k]` / `getattr`). -/
def alistGet {κ α : Type} [DecidableEq κ] : List (κ × α) → κ → Option α
  | [], _ => none
  | (k0, v0) :: rest, k => if k0 = k then some v0 else alistGet rest k

/-- Replace-in-place-or-append (Python `d[k] = v` / `setattr`): keeps the
key's original position, appends at the end when the key is new. -/
def alistSet {κ α : Type} [DecidableEq κ] : List (κ × α) → κ → α → List (κ × α)
  | [], k, v => [(k, v)]
  | (k0, v0) :: rest, k, v =>
    if k0 = k then (k0, v) :: rest else (k0, v0) :: alistSet rest k v

/-- Apply `f` to the value stored at key `k`, if present. -/
def alistUpdate {κ α : Type} [DecidableEq κ] (f : α → α) :
    List (κ × α) → κ → List (κ × α)
  | [], _ => []
  | (k0, v0) :: rest, k =>
    if k0 = k then (k0, f v0) :: rest else (k0, v0) :: alistUpdate f rest k

/-! ### Python `str.replace` (replace all non-overlapping occurrences) -/

/-- Scanner for `str.replace`, structural on a fuel argument; fuel equal to
the length of the scanned list always suffices (each step consumes at least
one character when the pattern is non-empty, which it is at every use). -/
def replaceFuel (pat rep : List Char) : Nat → List Char → List Char
  | _, [] => []
  | 0, l => l
  | n + 1, c :: cs =>
    if pat.isPrefixOf (c :: cs) then
      rep ++ replaceFuel pat rep n (List.drop (pat.length - 1) cs)
    else
      c :: replaceFuel pat rep n cs

/-- Python `s.replace(pat, rep)` for a non-empty pattern: replace every
non-overlapping occurrence, scanning left to right.  (All patterns used by
the source — the base URI — are non-empty.) -/
def pyReplace (s pat rep : String) : String :=
  String.mk (replaceFuel pat.data rep.data s.data.length s.data)

/-- `str(p).replace(BASE, "")`: strip the base-URI namespace off a
predicate. -/
def stripBase (p : String) : String := pyReplace p BASE ""

/-- Python `s.startswith(pre)`. -/
def pyStartsWith (s pre : String) : Bool := pre.data.isPrefixOf s.data

/-- Python `s.endswith(suf)`. -/
def pyEndsWith (s suf : String) : Bool := suf.data.isSuffixOf s.data

/-- Python `s[:-1]`: the string without its last character. -/
def pyDropLast (s : String) : String := String.mk s.data.dropLast

/-- ASCII model of Python `unicode.lower()`. -/
def pyLower (s : String) : String := String.mk (s.data.map Char.toLower)

/-! ### Materialized node objects -/

/-- A `Node` object's `__dict__`: attribute name to string value. -/
abbrev Attrs := List (String × String)

/-- `Node(uri=s)`: a fresh node record carrying only its `uri` attribute. -/
def newNode (u : String) : Attrs := [("uri", u)]

/-- The node map of `get_triples`: subject/object URI to node record. -/
abbrev NodeMap := List (String × Attrs)

/-- `nodes.setdefault(k, Node(uri=k))`. -/
def setdefaultNode (m : NodeMap) (k : String) : NodeMap :=
  match alistGet m k with
  | some _ => m
  | none => m ++ [(k, newNode k)]

/-- Lines 89–91 of the source: attach literal `v` under attribute `pred`,
joining with `"; "` when the attribute already exists
(`if hasattr(child, pred): o = getattr(child, pred) + "; " + o`). -/
def addLit (n : Attrs) (pred v : String) : Attrs :=
  match alistGet n pred with
  | some old => alistSet n pred (old ++ "; " ++ v)
  | none => alistSet n pred v

/-- The node record stored for `u` (`[]` when absent — lookups on it then
yield `none`, mirroring a missing object). -/
def nodeOf (m : NodeMap) (u : String) : Attrs := (alistGet m u).getD []

/-! ### Left-to-right short-circuiting traversal in `Except` -/

/-- Map a fallible function over a list, left to right, stopping at the
first error — the evaluation order of a Python loop or comprehension that
may raise. -/
def exceptMapM {α β : Type} (f : α → Except String β) :
    List α → Except String (List β)
  | [] => .ok []
  | a :: l =>
    match f a with
    | .error e => .error e
    | .ok b =>
      match exceptMapM f l with
      | .error e => .error e
      | .ok bs => .ok (b :: bs)

/-! ### `SyntaxTree.get_triples` -/

/-- The `filter_predicate` argument: Python `None`, a single string, or a
list of strings. -/
inductive FilterArg where
  | nullF
  | strF (s : String)
  | listF (l : List String)
deriving DecidableEq, Repr

/-- Lines 80–81 of the source: a plain string is wrapped into a one-element
list; `None` stays `None`. -/
def FilterArg.norm : FilterArg → Option (List String)
  | nullF => none
  | strF s => some [s]
  | listF l => some l

/-- Python `filter_predicate and pred not in filter_predicate`
(`None` and the empty list are falsy). -/
def filterExcludes (fp : Option (List String)) (pred : String) : Bool :=
  match fp with
  | none => false
  | some l => !l.isEmpty && !l.contains pred

/-- Lines 94–97 of the source: the condition under which a non-literal fact
contributes an edge to the result. -/
def keepEdge (ignore_rel : Bool) (fp : Option (List String))
    (ignore_grammatical : Bool) (pred : String) : Bool :=
  !((ignore_rel && pred == "rel")
    || (ignore_grammatical && pyStartsWith pred "rel_")
    || filterExcludes fp pred
    || (pred == RDF_TYPE))

/-- The loop state of `get_triples`: the edge list (subject URI, stripped
predicate, object URI) and the node map.  Edges hold node *references* in
Python; since those references alias the map entries, the embedding keys
edges by URI and resolves them against the final map. -/
structure GTState where
  edges : List (String × String × String)
  nodes : NodeMap
deriving DecidableEq, Repr

/-- One iteration of the `for s, p, o in self.soh.get_triples()` loop
(lines 83–99 of the source). -/
def gtStep (ir : Bool) (fp : Option (List String)) (ig : Bool)
    (st : GTState) (f : Fact) : GTState :=
  match f.o with
  | .lit v =>
    { st with
      nodes := alistUpdate (fun n => addLit n (stripBase f.p) v)
        (setdefaultNode st.nodes f.s) f.s }
  | .node u =>
    if keepEdge ir fp ig (stripBase f.p) then
      { edges := st.edges ++ [(f.s, stripBase f.p, u)],
        nodes := setdefaultNode (setdefaultNode st.nodes f.s) u }
    else
      { st with nodes := setdefaultNode st.nodes f.s }

/-- The whole loop of `get_triples`. -/
def gtRun (ir : Bool) (fp : Option (List String)) (ig : Bool) :
    GTState → List Fact → GTState
  | st, [] => st
  | st, f :: fs => gtRun ir fp ig (gtStep ir fp ig st f) fs

/-- The final loop state of `get_triples` on the store's fact list. -/
def getTriplesState (ir : Bool) (fp : Option (List String)) (ig : Bool)
    (facts : List Fact) : GTState :=
  gtRun ir fp ig ⟨[], []⟩ facts

/-- `s.id` on a materialized node: the `id` attribute, or an
`AttributeError` when the node never received one. -/
def nodeIdAttr (m : NodeMap) (u : String) : Except String String :=
  match alistGet (nodeOf m u) "id" with
  | some i => .ok i
  | none => .error "AttributeError: Node instance has no attribute id"

/-- The result of `get_triples`: full node-record triples, or the
`minimal=True` projection. -/
inductive GTResult where
  | full (triples : List (Attrs × String × Attrs))
  | minimal (triples : List (String × String × String))
deriving DecidableEq, Repr

/-- `SyntaxTree.get_triples` (lines 76–104 of the source), over the store's
current fact list. -/
def get_triples (facts : List Fact) (ignore_rel : Bool)
    (filter_predicate : FilterArg) (ignore_grammatical : Bool)
    (minimal : Bool) : Except String GTResult :=
  let st := getTriplesState ignore_rel filter_predicate.norm
      ignore_grammatical facts
  if minimal then
    match exceptMapM (fun e => do
        let si ← nodeIdAttr st.nodes e.1
        let oi ← nodeIdAttr st.nodes e.2.2
        pure (si, e.2.1, oi)) st.edges with
    | .error e => .error e
    | .ok l => .ok (.minimal l)
  else
    .ok (.full (st.edges.map fun e =>
      (nodeOf st.nodes e.1, e.2.1, nodeOf st.nodes e.2.2)))

/-! ### `SyntaxTree.get_tokens` and `SyntaxTree.apply_lexicon` -/

/-- `get_tokens` (lines 125–130 of the source): for every literal fact,
record the value under the subject's token dict, stripped predicate as key
(later facts overwrite — plain dict assignment, not the join of
`get_triples`). -/
def get_tokens (facts : List Fact) : List (String × Attrs) :=
  facts.foldl
    (fun toks f =>
      match f.o with
      | .lit v =>
        alistSet toks f.s (alistSet ((alistGet toks f.s).getD []) (stripBase f.p) v)
      | .node _ => toks)
    []

/-- A lexicon entry's `lemma` field: a single string or a list. -/
inductive LemmaSpec where
  | one (s : String)
  | many (l : List String)
deriving DecidableEq, Repr

/-- Lines 146–147 of the source: wrap a single lemma into a list. -/
def LemmaSpec.toList : LemmaSpec → List String
  | one s => [s]
  | many l => l

/-- A lexicon entry: `lexclass`, `lemma` (string or list), optional `pos`. -/
structure LexEntry where
  lexclass : String
  lemma_ : LemmaSpec
  pos : Option String
deriving DecidableEq, Repr

/-- Lines 149–150 of the source: a lexicon lemma target matches the
(already lowercased) token lemma if it is equal to it, or ends in `*` and
the token lemma starts with the part before the `*`. -/
def lemmaTargetMatches (target lemma_ : String) : Bool :=
  target == lemma_
    || (pyEndsWith target "*" && pyStartsWith lemma_ (pyDropLast target))

/-- Lines 151–152 of the source: the SPARQL insert clause
`'{uri} :lexclass "{lexclass}"'` sent for a match. -/
def lexInsert (uri lexclass : String) : String :=
  uri ++ " :lexclass \"" ++ lexclass ++ "\""

/-- The body of the per-token loop of `apply_lexicon` (lines 138–153):
read `pos` and `lemma` (a `KeyError` when absent), then emit one insert per
matching `(entry, lemma target)` pair, in lexicon order. -/
def lexTokenUpdates (lexicon : List LexEntry) (uri : String)
    (token : Attrs) : Except String (List String) :=
  match alistGet token "pos" with
  | none => .error "KeyError: pos"
  | some pos =>
    match alistGet token "lemma" with
    | none => .error "KeyError: lemma"
    | some lemma0 =>
      let lemma_ := pyLower lemma0
      .ok (lexicon.flatMap fun lex =>
        if lex.pos.any (fun p => p != pos) then []
        else
          lex.lemma_.toList.filterMap fun target =>
            if lemmaTargetMatches target lemma_ then
              some (lexInsert uri lex.lexclass)
            else none)

/-- `apply_lexicon` (lines 132–153 of the source): per token of
`get_tokens`, with the subject URI's base replaced by `":"`; the result is
the list of update strings sent to the store, or the first error raised. -/
def apply_lexicon (lexicon : List LexEntry) (facts : List Fact) :
    Except String (List String) :=
  match exceptMapM
      (fun t => lexTokenUpdates lexicon (pyReplace t.1 BASE ":") t.2)
      (get_tokens facts) with
  | .error e => .error e
  | .ok updss => .ok updss.flatten

/-! ### `_saf_to_rdf` -/

/-- A SAF token: its integer `id` and `sentence` fields, its `lemma`, and
the full flat attribute map iterated by the conversion (which, for a real
token dict, contains string renderings of `id`, `sentence` and `lemma` as
well). -/
structure SafToken where
  id : Int
  sentence : Int
  lemma_ : String
  attrs : Attrs
deriving DecidableEq, Repr

/-- A SAF dependency: `child` and `parent` token ids and the relation. -/
structure SafDep where
  child : Int
  parent : Int
  relation : String
deriving DecidableEq, Repr

/-- A SAF article: token list and dependency list. -/
structure SafArticle where
  tokens : List SafToken
  dependencies : List SafDep
deriving DecidableEq, Repr

/-- `_token_uri` (lines 195–198): `NS_BASE["t_{id}_{lemma}"]`, with the
lemma transliterated; the external `unidecode` transliteration is passed in
as a parameter `translit`. -/
def tokenUri (translit : String → String) (t : SafToken) : String :=
  BASE ++ "t_" ++ toString t.id ++ "_" ++ translit t.lemma_

/-- The tokens of the article whose `sentence` field equals the requested
sentence id (the filter applied by the token loop, line 205). -/
def safSelect (art : SafArticle) (sentence_id : Int) : List SafToken :=
  art.tokens.filter fun t => t.sentence == sentence_id

/-- The `tokens` dict built by the token loop (line 209):
`tokens[int(token['id'])] = uri`, later tokens overwriting earlier ones. -/
def safTokenMap (translit : String → String) (toks : List SafToken) :
    List (Int × String) :=
  toks.foldl (fun m t => alistSet m t.id (tokenUri translit t)) []

/-- The literal facts yielded by the token loop (lines 204–209): one fact
per attribute of each selected token. -/
def safLitFacts (translit : String → String) (toks : List SafToken) :
    List Fact :=
  toks.flatMap fun t =>
    t.attrs.map fun kv =>
      ⟨tokenUri translit t, BASE ++ kv.1, Obj.lit (translit kv.2)⟩

/-- The dependency loop (lines 211–216): a dependency whose child id is
absent from the token dict is skipped; for one whose child is present, the
parent is looked up (a `KeyError` when absent) and two facts are yielded:
`rel_{relation}` and `rel`, both from child URI to parent URI. -/
def safDepFacts (tokMap : List (Int × String)) :
    List SafDep → Except String (List Fact)
  | [] => .ok []
  | d :: ds =>
    match alistGet tokMap d.child with
    | none => safDepFacts tokMap ds
    | some child =>
      match alistGet tokMap d.parent with
      | none => .error ("KeyError: " ++ toString d.parent)
      | some parent =>
        match safDepFacts tokMap ds with
        | .error e => .error e
        | .ok rest =>
          .ok (⟨child, BASE ++ "rel_" ++ d.relation, Obj.node parent⟩
            :: ⟨child, BASE ++ "rel", Obj.node parent⟩ :: rest)

/-- `_saf_to_rdf` (lines 190–216 of the source): the literal facts of the
selected tokens followed by the dependency facts; an error as soon as a
dependency's parent lookup fails. -/
def saf_to_rdf (translit : String → String) (art : SafArticle)
    (sentence_id : Int) : Except String (List Fact) :=
  match safDepFacts (safTokenMap translit (safSelect art sentence_id))
      art.dependencies with
  | .error e => .error e
  | .ok deps =>
    .ok (safLitFacts translit (safSelect art sentence_id) ++ deps)

/-! ### Specification-side definitions

These restate, in the spec's own words, the behaviors the claims assert;
the theorems below compare them against the source-translated functions. -/

/-- The edge contributed by one fact in the `get_triples` loop, phrased
with the source's `keepEdge` condition. -/
def edgeOf (ir : Bool) (fp : Option (List String)) (ig : Bool) (f : Fact) :
    Option (String × String × String) :=
  match f.o with
  | .lit _ => none
  | .node u =>
    if keepEdge ir fp ig (stripBase f.p) then
      some (f.s, stripBase f.p, u)
    else none

/-- The claim's edge-inclusion condition: excluded by *none* of — equal to
`rel` while `ignore_rel`; prefixed `rel_` while `ignore_grammatical`;
absent from a given non-empty `filter_predicate`; equal to the reserved
`rdf:type` predicate. -/
def specEdgeIncluded (ir : Bool) (fp : Option (List String)) (ig : Bool)
    (pred : String) : Bool :=
  !(ir && pred == "rel")
    && !(ig && pyStartsWith pred "rel_")
    && !(fp.any fun l => !l.isEmpty && !l.contains pred)
    && !(pred == RDF_TYPE)

/-- The edge sequence the spec prescribes: one edge per non-literal fact
whose base-stripped predicate satisfies `specEdgeIncluded`, in fact
order. -/
def specEdges (ir : Bool) (fp : Option (List String)) (ig : Bool)
    (facts : List Fact) : List (String × String × String) :=
  facts.filterMap fun f =>
    match f.o with
    | .lit _ => none
    | .node u =>
      if specEdgeIncluded ir fp ig (stripBase f.p) then
        some (f.s, stripBase f.p, u)
      else none

/-- The literal values carried by facts for subject `s` under base-stripped
predicate `pred`, in encounter order. -/
def litVals (facts : List Fact) (s pred : String) : List String :=
  facts.filterMap fun f =>
    match f.o with
    | .lit v => if f.s == s && stripBase f.p == pred then some v else none
    | .node _ => none

/-- One join step of the `"; "` accumulation: the first value is kept
as-is, each further one is appended after `"; "`. -/
def joinStep : Option String → String → Option String
  | none, v => some v
  | some a, v => some (a ++ "; " ++ v)

/-- The spec's join policy: all values joined with separator `"; "`. -/
def joinSemi : List String → String
  | [] => ""
  | [v] => v
  | v :: w :: vs => v ++ "; " ++ joinSemi (w :: vs)

/-- Association-list well-formedness: no two entries share a key. -/
def NodupKeys {κ α : Type} (d : List (κ × α)) : Prop :=
  d.Pairwise fun a b => a.1 ≠ b.1

/-- Every node record in a node map has pairwise-distinct attribute
names. -/
def NodesWF (m : NodeMap) : Prop :=
  ∀ u n, alistGet m u = some n → NodupKeys n

/-- The `minimal=True` projection of one edge, reading the endpoint nodes'
`id` attributes out of the final node map. -/
def minEdgeProj (m : NodeMap) (e : String × String × String) :
    String × String × String :=
  ((alistGet (nodeOf m e.1) "id").getD "", e.2.1,
    (alistGet (nodeOf m e.2.2) "id").getD "")

/-- C1's amended matching rule: the token's lemma is lowercased, the
entry's lemma target is compared verbatim — equal, or a `*`-terminated
target whose stem starts the lowercased token lemma. -/
def specTokenLowerMatch (target lemma_orig : String) : Bool :=
  target == pyLower lemma_orig
    || (pyEndsWith target "*"
        && pyStartsWith (pyLower lemma_orig) (pyDropLast target))

/-- The spec's literal facts for a sentence: one fact per attribute of each
token whose `sentence` field equals the sentence id, in order. -/
def specSafLitFacts (translit : String → String) (art : SafArticle)
    (sentence_id : Int) : List Fact :=
  (art.tokens.filter fun t => t.sentence == sentence_id).flatMap fun t =>
    t.attrs.map fun kv =>
      ⟨tokenUri translit t, BASE ++ kv.1, Obj.lit (translit kv.2)⟩

/-- The spec's relation facts: two per dependency between tokens of the
sentence (child and parent both resolvable), the relation-specific
`rel_{relation}` fact followed by the generic `rel` fact, both from the
child token's URI to the parent token's URI. -/
def specSafRelFacts (translit : String → String) (art : SafArticle)
    (sentence_id : Int) : List Fact :=
  let m := safTokenMap translit (safSelect art sentence_id)
  (art.dependencies.filter fun d =>
      (alistGet m d.child).isSome && (alistGet m d.parent).isSome).flatMap
    fun d =>
      [⟨(alistGet m d.child).getD "", BASE ++ "rel_" ++ d.relation,
          Obj.node ((alistGet m d.parent).getD "")⟩,
        ⟨(alistGet m d.child).getD "", BASE ++ "rel",
          Obj.node ((alistGet m d.parent).getD "")⟩]

/-! ## Helper lemmas about association lists -/

theorem alistGet_alistSet_self {κ α : Type} [DecidableEq κ]
    (d : List (κ × α)) (k : κ) (v : α) :
    alistGet (alistSet d k v) k = some v := by
  induction d with
  | nil => simp [alistSet, alistGet]
  | cons h0 rest ih =>
    obtain ⟨k0, v0⟩ := h0
    by_cases hk : k0 = k
    · simp [alistSet, hk, alistGet]
    · simp [alistSet, hk, alistGet, ih]

theorem alistGet_alistSet_ne {κ α : Type} [DecidableEq κ]
    (d : List (κ × α)) (k u : κ) (v : α) (h : u ≠ k) :
    alistGet (alistSet d k v) u = alistGet d u := by
  have hku : ¬(k = u) := fun h2 => h h2.symm
  induction d with
  | nil => simp only [alistSet, alistGet, if_neg hku]
  | cons h0 rest ih =>
    obtain ⟨k0, v0⟩ := h0
    by_cases hk : k0 = k
    · subst hk
      simp only [alistSet, if_pos rfl, alistGet, if_neg hku]
    · simp only [alistSet, if_neg hk, alistGet]
      by_cases hu : k0 = u
      · simp only [if_pos hu]
      · simp only [if_neg hu, ih]

theorem alistGet_alistUpdate_self {κ α : Type} [DecidableEq κ]
    (f : α → α) (d : List (κ × α)) (k : κ) :
    alistGet (alistUpdate f d k) k = (alistGet d k).map f := by
  induction d with
  | nil => simp [alistUpdate, alistGet]
  | cons h0 rest ih =>
    obtain ⟨k0, v0⟩ := h0
    by_cases hk : k0 = k
    · simp [alistUpdate, hk, alistGet]
    · simp [alistUpdate, hk, alistGet, ih]

theorem alistGet_alistUpdate_ne {κ α : Type} [DecidableEq κ]
    (f : α → α) (d : List (κ × α)) (k u : κ) (h : u ≠ k) :
    alistGet (alistUpdate f d k) u = alistGet d u := by
  have hku : ¬(k = u) := fun h2 => h h2.symm
  induction d with
  | nil => simp only [alistUpdate, alistGet]
  | cons h0 rest ih =>
    obtain ⟨k0, v0⟩ := h0
    by_cases hk : k0 = k
    · subst hk
      simp only [alistUpdate, if_pos rfl, alistGet, if_neg hku]
    · simp only [alistUpdate, if_neg hk, alistGet]
      by_cases hu : k0 = u
      · simp only [if_pos hu]
      · simp only [if_neg hu, ih]

theorem alistGet_append_left {κ α : Type} [DecidableEq κ]
    (m l : List (κ × α)) (u : κ) (h : (alistGet m u).isSome) :
    alistGet (m ++ l) u = alistGet m u := by
  induction m with
  | nil => simp [alistGet] at h
  | cons h0 rest ih =>
    obtain ⟨k0, v0⟩ := h0
    by_cases hu : k0 = u
    · simp [alistGet, hu]
    · simp [alistGet, hu] at h ⊢
      exact ih h

theorem alistGet_append_right {κ α : Type} [DecidableEq κ]
    (m l : List (κ × α)) (u : κ) (h : alistGet m u = none) :
    alistGet (m ++ l) u = alistGet l u := by
  induction m with
  | nil => simp [alistGet]
  | cons h0 rest ih =>
    obtain ⟨k0, v0⟩ := h0
    by_cases hu : k0 = u
    · simp [alistGet, hu] at h
    · simp [alistGet, hu] at h ⊢
      exact ih h

theorem alistGet_setdefault_self (m : NodeMap) (k : String) :
    alistGet (setdefaultNode m k) k
      = some ((alistGet m k).getD (newNode k)) := by
  unfold setdefaultNode
  cases h : alistGet m k with
  | some n => simp [h]
  | none =>
    rw [alistGet_append_right m _ k h]
    simp [alistGet]

theorem alistGet_setdefault_ne (m : NodeMap) (k u : String) (h : u ≠ k) :
    alistGet (setdefaultNode m k) u = alistGet m u := by
  unfold setdefaultNode
  cases hk : alistGet m k with
  | some n => rfl
  | none =>
    cases hu : alistGet m u with
    | some n =>
      rw [alistGet_append_left m _ u (by simp [hu])]
      exact hu
    | none =>
      rw [alistGet_append_right m _ u hu]
      simp only [alistGet, if_neg (fun h2 : k = u => h h2.symm)]

theorem alistGet_addLit_self (n : Attrs) (k v : String) :
    alistGet (addLit n k v) k
      = some (match alistGet n k with
          | some old => old ++ "; " ++ v
          | none => v) := by
  unfold addLit
  cases h : alistGet n k <;> simp [alistGet_alistSet_self]

theorem alistGet_addLit_ne (n : Attrs) (k u v : String) (h : u ≠ k) :
    alistGet (addLit n k v) u = alistGet n u := by
  unfold addLit
  cases hk : alistGet n k <;> rw [alistGet_alistSet_ne _ _ _ _ h]

/-! ## The edge set of `get_triples` (C5, C9, C2) -/

theorem filterExcludes_eq_any (fp : Option (List String)) (pred : String) :
    filterExcludes fp pred
      = fp.any (fun l => !l.isEmpty && !l.contains pred) := by
  cases fp <;> rfl

theorem keepEdge_eq_specEdgeIncluded (ir : Bool) (fp : Option (List String))
    (ig : Bool) (pred : String) :
    keepEdge ir fp ig pred = specEdgeIncluded ir fp ig pred := by
  simp only [keepEdge, specEdgeIncluded, ← filterExcludes_eq_any,
    Bool.not_or, Bool.and_assoc]

theorem gtStep_edges (ir : Bool) (fp : Option (List String)) (ig : Bool)
    (st : GTState) (f : Fact) :
    (gtStep ir fp ig st f).edges = st.edges ++ (edgeOf ir fp ig f).toList := by
  obtain ⟨s, p, o⟩ := f
  cases o with
  | lit v => simp [gtStep, edgeOf]
  | node u =>
    simp only [gtStep, edgeOf]
    by_cases hk : keepEdge ir fp ig (stripBase p) = true
    · simp [hk]
    · simp [hk]

theorem gtRun_edges (ir : Bool) (fp : Option (List String)) (ig : Bool)
    (fs : List Fact) : ∀ st : GTState,
    (gtRun ir fp ig st fs).edges
      = st.edges ++ fs.filterMap (edgeOf ir fp ig) := by
  induction fs with
  | nil => intro st; simp [gtRun]
  | cons f fs ih =>
    intro st
    show (gtRun ir fp ig (gtStep ir fp ig st f) fs).edges = _
    rw [ih, gtStep_edges, List.filterMap_cons]
    cases h : edgeOf ir fp ig f <;> simp [h]

theorem filterMap_edgeOf_eq_specEdges (ir : Bool) (fp : Option (List String))
    (ig : Bool) (facts : List Fact) :
    facts.filterMap (edgeOf ir fp ig) = specEdges ir fp ig facts := by
  unfold specEdges
  congr 1
  funext f
  unfold edgeOf
  cases f.o <;> simp [keepEdge_eq_specEdgeIncluded]

/-- C5: `get_triples` produces an edge for a non-literal fact if and only
if its base-stripped predicate is excluded by none of: equal to `rel`
while `ignore_rel`; prefixed `rel_` while `ignore_grammatical`; absent
from a given non-empty `filter_predicate`; equal to the reserved
`rdf:type` predicate.  The edges of the loop state equal exactly the
filter of the fact list by that inclusion condition. -/
theorem C5_edge_inclusion (facts : List Fact) (ir : Bool)
    (fparg : FilterArg) (ig : Bool) :
    (getTriplesState ir fparg.norm ig facts).edges
      = specEdges ir fparg.norm ig facts := by
  rw [getTriplesState, gtRun_edges, filterMap_edgeOf_eq_specEdges]
  simp

/-- C9: calling `get_triples` with `filter_predicate` given as a single
string returns exactly the same result as calling it with the one-element
list containing that string, for every store content and every setting of
the other arguments. -/
theorem C9_filter_string_singleton (facts : List Fact) (ir ig mn : Bool)
    (s : String) :
    get_triples facts ir (.strF s) ig mn
      = get_triples facts ir (.listF [s]) ig mn := rfl

theorem isSome_alistGet_setdefault_self (m : NodeMap) (k : String) :
    (alistGet (setdefaultNode m k) k).isSome := by
  rw [alistGet_setdefault_self]; rfl

theorem isSome_alistGet_setdefault_mono (m : NodeMap) (k u : String)
    (h : (alistGet m u).isSome) :
    (alistGet (setdefaultNode m k) u).isSome := by
  by_cases hu : u = k
  · subst hu; rw [alistGet_setdefault_self]; rfl
  · rw [alistGet_setdefault_ne m k u hu]; exact h

theorem isSome_alistGet_gtStep_mono (ir : Bool) (fp : Option (List String))
    (ig : Bool) (st : GTState) (f : Fact) (u : String)
    (h : (alistGet st.nodes u).isSome) :
    (alistGet (gtStep ir fp ig st f).nodes u).isSome := by
  obtain ⟨s, p, o⟩ := f
  cases o with
  | lit v =>
    simp only [gtStep]
    by_cases hu : u = s
    · subst hu
      rw [alistGet_alistUpdate_self]
      cases h2 : alistGet (setdefaultNode st.nodes u) u with
      | some n => rfl
      | none =>
        have := isSome_alistGet_setdefault_self st.nodes u
        rw [h2] at this
        exact absurd this (by simp)
    · rw [alistGet_alistUpdate_ne _ _ _ _ hu, alistGet_setdefault_ne _ _ _ hu]
      exact h
  | node u2 =>
    simp only [gtStep]
    by_cases hk : keepEdge ir fp ig (stripBase p) = true
    · simp only [if_pos hk]
      exact isSome_alistGet_setdefault_mono _ _ _
        (isSome_alistGet_setdefault_mono _ _ _ h)
    · simp only [if_neg hk]
      exact isSome_alistGet_setdefault_mono _ _ _ h

theorem isSome_alistGet_gtRun_mono (ir : Bool) (fp : Option (List String))
    (ig : Bool) (fs : List Fact) : ∀ (st : GTState) (u : String),
    (alistGet st.nodes u).isSome →
    (alistGet (gtRun ir fp ig st fs).nodes u).isSome := by
  induction fs with
  | nil => intro st u h; exact h
  | cons f fs ih =>
    intro st u h
    exact ih _ _ (isSome_alistGet_gtStep_mono ir fp ig st f u h)

theorem isSome_gtStep_subject (ir : Bool) (fp : Option (List String))
    (ig : Bool) (st : GTState) (f : Fact) :
    (alistGet (gtStep ir fp ig st f).nodes f.s).isSome := by
  obtain ⟨s, p, o⟩ := f
  cases o with
  | lit v =>
    simp only [gtStep]
    rw [alistGet_alistUpdate_self]
    cases h2 : alistGet (setdefaultNode st.nodes s) s with
    | some n => rfl
    | none =>
      have := isSome_alistGet_setdefault_self st.nodes s
      rw [h2] at this
      exact absurd this (by simp)
  | node u2 =>
    simp only [gtStep]
    by_cases hk : keepEdge ir fp ig (stripBase p) = true
    · simp only [if_pos hk]
      exact isSome_alistGet_setdefault_mono _ _ _
        (isSome_alistGet_setdefault_self st.nodes s)
    · simp only [if_neg hk]
      exact isSome_alistGet_setdefault_self st.nodes s

theorem gtRun_hasKey (ir : Bool) (fp : Option (List String)) (ig : Bool)
    (fs : List Fact) : ∀ (st : GTState) (u : String),
    ((∃ f ∈ fs, f.s = u)
      ∨ ∃ f ∈ fs, f.o = Obj.node u ∧ keepEdge ir fp ig (stripBase f.p) = true) →
    (alistGet (gtRun ir fp ig st fs).nodes u).isSome := by
  induction fs with
  | nil =>
    intro st u h
    rcases h with ⟨f, hf, _⟩ | ⟨f, hf, _⟩ <;> exact absurd hf (List.not_mem_nil f)
  | cons f0 fs ih =>
    intro st u h
    rcases h with ⟨f, hf, hs⟩ | ⟨f, hf, ho, hkeep⟩
    · rcases List.mem_cons.mp hf with heq | htail
      · subst heq
        exact isSome_alistGet_gtRun_mono ir fp ig fs _ u
          (hs ▸ isSome_gtStep_subject ir fp ig st f)
      · exact ih _ u (Or.inl ⟨f, htail, hs⟩)
    · rcases List.mem_cons.mp hf with heq | htail
      · subst heq
        obtain ⟨s, p, o⟩ := f
        cases o with
        | lit v => exact absurd ho (by simp)
        | node u2 =>
          have hu : u2 = u := by
            have := ho
            simp only [Obj.node.injEq] at this
            exact this
          subst hu
          apply isSome_alistGet_gtRun_mono ir fp ig fs _ u2
          simp only [gtStep, if_pos hkeep]
          exact isSome_alistGet_setdefault_self _ u2
      · exact ih _ u (Or.inr ⟨f, htail, ho, hkeep⟩)

/-- C2 as stated is false: with `ignore_rel=True` and a single non-literal
`rel` fact, the object identifier `B` is referenced by a triple but gets no
node record — `nodes.setdefault` runs for objects only when the triple
passes the edge filters. -/
theorem C2_counterexample :
    (([⟨"A", BASE ++ "rel", Obj.node "B"⟩] : List Fact).any
        fun f => f.o == Obj.node "B") = true
    ∧ alistGet (getTriplesState true none false
        [⟨"A", BASE ++ "rel", Obj.node "B"⟩]).nodes "B" = none :=
  ⟨rfl, rfl⟩

/-- C2 amended: in the materialized view built by `get_triples`, a node
record exists in the node map for every identifier referenced by a triple
as subject, and for every identifier referenced as the object of a
non-literal triple whose base-stripped predicate passes the edge filters
(not for objects of excluded triples). -/
theorem C2_amended_node_map_keys (facts : List Fact) (ir : Bool)
    (fparg : FilterArg) (ig : Bool) (u : String)
    (h : (∃ f ∈ facts, f.s = u)
      ∨ ∃ f ∈ facts, f.o = Obj.node u
          ∧ specEdgeIncluded ir fparg.norm ig (stripBase f.p) = true) :
    (alistGet (getTriplesState ir fparg.norm ig facts).nodes u).isSome
      = true := by
  apply gtRun_hasKey
  rcases h with hl | ⟨f, hf, ho, hkeep⟩
  · exact Or.inl hl
  · exact Or.inr ⟨f, hf, ho, by rw [keepEdge_eq_specEdgeIncluded]; exact hkeep⟩

/-- Witness for C2's amended theorem: with `ignore_rel=False` the `rel`
fact is kept, and its object `B` does get a node record. -/
theorem C2_witness :
    (alistGet (getTriplesState false FilterArg.nullF.norm false
        [⟨"A", BASE ++ "rel", Obj.node "B"⟩]).nodes "B").isSome = true :=
  C2_amended_node_map_keys [⟨"A", BASE ++ "rel", Obj.node "B"⟩] false
    .nullF false "B"
    (Or.inr ⟨⟨"A", BASE ++ "rel", Obj.node "B"⟩, by simp, rfl, by decide⟩)

/-! ## The `minimal=True` projection (C3) -/

theorem exceptMapM_ok_of_forall {α β : Type} (f : α → Except String β)
    (g : α → β) (l : List α) (h : ∀ a ∈ l, f a = .ok (g a)) :
    exceptMapM f l = .ok (l.map g) := by
  induction l with
  | nil => rfl
  | cons a l ih =>
    simp only [exceptMapM]
    rw [h a (by simp), ih (fun b hb => h b (by simp [hb]))]
    simp

theorem nodeIdAttr_ok (m : NodeMap) (u : String)
    (h : (alistGet (nodeOf m u) "id").isSome) :
    nodeIdAttr m u = .ok ((alistGet (nodeOf m u) "id").getD "") := by
  unfold nodeIdAttr
  cases h2 : alistGet (nodeOf m u) "id" with
  | some i => rfl
  | none => rw [h2] at h; exact absurd h (by simp)

/-- C3 as stated is false: a store whose nodes never receive an `id`
literal attribute makes `get_triples` with `minimal=True` raise an
`AttributeError` — node records do not intrinsically carry a derived short
`id`. -/
theorem C3_counterexample :
    get_triples [⟨"A", BASE ++ "dep", Obj.node "B"⟩] true .nullF false true
      = .error "AttributeError: Node instance has no attribute id" := rfl

/-- C3 amended: a node record carries an `id` attribute only when an `id`
literal fact was observed for it; whenever both endpoints of every
produced edge carry one, `get_triples` with `minimal=True` succeeds and
projects each edge to (subject node's id, predicate, object node's id). -/
theorem C3_amended_minimal_projection (facts : List Fact) (ir : Bool)
    (fparg : FilterArg) (ig : Bool)
    (h : ∀ e ∈ (getTriplesState ir fparg.norm ig facts).edges,
        (alistGet (nodeOf (getTriplesState ir fparg.norm ig facts).nodes e.1)
            "id").isSome
        ∧ (alistGet (nodeOf (getTriplesState ir fparg.norm ig facts).nodes
            e.2.2) "id").isSome) :
    get_triples facts ir fparg ig true
      = .ok (.minimal ((getTriplesState ir fparg.norm ig facts).edges.map
          (minEdgeProj (getTriplesState ir fparg.norm ig facts).nodes))) := by
  unfold get_triples
  simp only [if_pos]
  rw [exceptMapM_ok_of_forall _
    (minEdgeProj (getTriplesState ir fparg.norm ig facts).nodes) _ ?_]
  · intro e he
    obtain ⟨h1, h2⟩ := h e he
    rw [nodeIdAttr_ok _ _ h1]
    show Except.bind _ _ = _
    rw [nodeIdAttr_ok _ _ h2]
    rfl

/-- Witness for C3's amended theorem: every edge endpoint carries an `id`
attribute, so the minimal projection succeeds. -/
theorem C3_witness :
    get_triples
        [⟨"A", BASE ++ "id", Obj.lit "1"⟩, ⟨"B", BASE ++ "id", Obj.lit "2"⟩,
          ⟨"A", BASE ++ "dep", Obj.node "B"⟩] true .nullF false true
      = .ok (.minimal (((getTriplesState true FilterArg.nullF.norm false
          [⟨"A", BASE ++ "id", Obj.lit "1"⟩, ⟨"B", BASE ++ "id", Obj.lit "2"⟩,
            ⟨"A", BASE ++ "dep", Obj.node "B"⟩]).edges).map
          (minEdgeProj (getTriplesState true FilterArg.nullF.norm false
          [⟨"A", BASE ++ "id", Obj.lit "1"⟩, ⟨"B", BASE ++ "id", Obj.lit "2"⟩,
            ⟨"A", BASE ++ "dep", Obj.node "B"⟩]).nodes))) :=
  C3_amended_minimal_projection
    [⟨"A", BASE ++ "id", Obj.lit "1"⟩, ⟨"B", BASE ++ "id", Obj.lit "2"⟩,
      ⟨"A", BASE ++ "dep", Obj.node "B"⟩] true .nullF false (by decide)

/-! ## Literal attribute accumulation (C4) -/

theorem alistGet_getD_newNode (m : NodeMap) (s pred : String)
    (hpred : pred ≠ "uri") :
    alistGet ((alistGet m s).getD (newNode s)) pred
      = alistGet (nodeOf m s) pred := by
  unfold nodeOf
  cases alistGet m s with
  | some n => rfl
  | none =>
    simp only [Option.getD, newNode, alistGet,
      if_neg (fun h : "uri" = pred => hpred h.symm)]

theorem attr_setdefault (m : NodeMap) (k s pred : String)
    (hpred : pred ≠ "uri") :
    alistGet (nodeOf (setdefaultNode m k) s) pred
      = alistGet (nodeOf m s) pred := by
  by_cases hs : s = k
  · subst hs
    show alistGet ((alistGet (setdefaultNode m s) s).getD []) pred = _
    rw [alistGet_setdefault_self]
    show alistGet ((alistGet m s).getD (newNode s)) pred = _
    exact alistGet_getD_newNode m s pred hpred
  · show alistGet ((alistGet (setdefaultNode m k) s).getD []) pred = _
    rw [alistGet_setdefault_ne m k s hs]
    rfl

theorem joinStep_eq_addLit_value (o : Option String) (v : String) :
    some (match o with
      | some old => old ++ "; " ++ v
      | none => v) = joinStep o v := by
  cases o <;> rfl

theorem attr_gtStep (ir : Bool) (fp : Option (List String)) (ig : Bool)
    (st : GTState) (f : Fact) (s pred : String) (hpred : pred ≠ "uri") :
    alistGet (nodeOf (gtStep ir fp ig st f).nodes s) pred
      = match f.o with
        | .lit v =>
          if f.s == s && stripBase f.p == pred then
            joinStep (alistGet (nodeOf st.nodes s) pred) v
          else alistGet (nodeOf st.nodes s) pred
        | .node _ => alistGet (nodeOf st.nodes s) pred := by
  obtain ⟨s0, p0, o0⟩ := f
  cases o0 with
  | lit v =>
    simp only [gtStep]
    by_cases hs : s0 = s
    · subst hs
      show alistGet ((alistGet (alistUpdate _ (setdefaultNode st.nodes s0) s0)
        s0).getD []) pred = _
      rw [alistGet_alistUpdate_self, alistGet_setdefault_self]
      show alistGet (addLit ((alistGet st.nodes s0).getD (newNode s0))
        (stripBase p0) v) pred = _
      by_cases hp : stripBase p0 = pred
      · subst hp
        rw [alistGet_addLit_self, joinStep_eq_addLit_value,
          alistGet_getD_newNode st.nodes s0 _ hpred]
        simp
      · rw [alistGet_addLit_ne _ _ _ _ (fun h2 => hp h2.symm),
          alistGet_getD_newNode st.nodes s0 _ hpred]
        have : (stripBase p0 == pred) = false := by
          simp [hp]
        simp [this]
    · show alistGet ((alistGet (alistUpdate _ (setdefaultNode st.nodes s0) s0)
        s).getD []) pred = _
      rw [alistGet_alistUpdate_ne _ _ _ _ (fun h2 => hs h2.symm),
        alistGet_setdefault_ne _ _ _ (fun h2 => hs h2.symm)]
      have : (s0 == s) = false := by simp [hs]
      simp [this]
      rfl
  | node u2 =>
    simp only [gtStep]
    by_cases hk : keepEdge ir fp ig (stripBase p0) = true
    · simp only [if_pos hk]
      show alistGet (nodeOf (setdefaultNode (setdefaultNode st.nodes s0) u2)
        s) pred = _
      rw [attr_setdefault _ _ _ _ hpred, attr_setdefault _ _ _ _ hpred]
    · simp only [if_neg hk]
      exact attr_setdefault _ _ _ _ hpred

theorem attr_gtRun (ir : Bool) (fp : Option (List String)) (ig : Bool)
    (s pred : String) (hpred : pred ≠ "uri") (fs : List Fact) :
    ∀ st : GTState,
    alistGet (nodeOf (gtRun ir fp ig st fs).nodes s) pred
      = (litVals fs s pred).foldl joinStep
          (alistGet (nodeOf st.nodes s) pred) := by
  induction fs with
  | nil => intro st; rfl
  | cons f fs ih =>
    intro st
    show alistGet (nodeOf (gtRun ir fp ig (gtStep ir fp ig st f) fs).nodes s)
      pred = _
    rw [ih, attr_gtStep ir fp ig st f s pred hpred]
    unfold litVals
    rw [List.filterMap_cons]
    obtain ⟨s0, p0, o0⟩ := f
    cases o0 with
    | lit v =>
      by_cases hc : (s0 == s && stripBase p0 == pred) = true
      · simp only [hc, if_pos]
        simp [litVals]
      · simp only [hc]
        simp at hc
        simp [litVals, hc]
    | node u2 => simp [litVals]

theorem foldl_joinStep_some (vs : List String) : ∀ a : String,
    vs.foldl joinStep (some a) = some (joinSemi (a :: vs)) := by
  induction vs with
  | nil => intro a; rfl
  | cons v vs ih =>
    intro a
    show vs.foldl joinStep (joinStep (some a) v) = _
    rw [show joinStep (some a) v = some (a ++ "; " ++ v) from rfl, ih]
    congr 1
    cases vs with
    | nil => rfl
    | cons w ws =>
      show (a ++ "; " ++ v) ++ "; " ++ joinSemi (w :: ws)
        = a ++ "; " ++ (v ++ "; " ++ joinSemi (w :: ws))
      simp [String.append_assoc]

theorem foldl_joinStep_none (vs : List String) (h : vs ≠ []) :
    vs.foldl joinStep none = some (joinSemi vs) := by
  cases vs with
  | nil => exact absurd rfl h
  | cons v vs =>
    show vs.foldl joinStep (joinStep none v) = _
    exact foldl_joinStep_some vs v

theorem mem_alistSet {κ α : Type} [DecidableEq κ] (d : List (κ × α))
    (k : κ) (v : α) (b : κ × α) (hb : b ∈ alistSet d k v) :
    b.1 = k ∨ b ∈ d := by
  induction d with
  | nil =>
    simp only [alistSet, List.mem_singleton] at hb
    subst hb
    exact Or.inl rfl
  | cons h0 rest ih =>
    obtain ⟨k0, v0⟩ := h0
    by_cases hk : k0 = k
    · simp only [alistSet, if_pos hk, List.mem_cons] at hb
      rcases hb with hb | hb
      · subst hb; exact Or.inl hk
      · exact Or.inr (List.mem_cons_of_mem _ hb)
    · simp only [alistSet, if_neg hk, List.mem_cons] at hb
      rcases hb with hb | hb
      · subst hb; exact Or.inr (List.mem_cons_self _ _)
      · rcases ih hb with h | h
        · exact Or.inl h
        · exact Or.inr (List.mem_cons_of_mem _ h)

theorem nodupKeys_alistSet {κ α : Type} [DecidableEq κ] (d : List (κ × α))
    (k : κ) (v : α) (h : NodupKeys d) : NodupKeys (alistSet d k v) := by
  induction d with
  | nil =>
    simp only [alistSet, NodupKeys]
    exact List.pairwise_singleton _ _
  | cons h0 rest ih =>
    obtain ⟨k0, v0⟩ := h0
    rw [NodupKeys, List.pairwise_cons] at h
    obtain ⟨hall, hrest⟩ := h
    by_cases hk : k0 = k
    · rw [NodupKeys]
      simp only [alistSet, if_pos hk]
      rw [List.pairwise_cons]
      exact ⟨hall, hrest⟩
    · rw [NodupKeys]
      simp only [alistSet, if_neg hk]
      rw [List.pairwise_cons]
      refine ⟨?_, ih hrest⟩
      intro b hb
      rcases mem_alistSet rest k v b hb with h2 | h2
      · rw [h2]; exact fun h3 => hk h3
      · exact hall b h2

theorem nodupKeys_addLit (n : Attrs) (k v : String) (h : NodupKeys n) :
    NodupKeys (addLit n k v) := by
  unfold addLit
  cases alistGet n k <;> exact nodupKeys_alistSet _ _ _ h

theorem nodupKeys_newNode (u : String) : NodupKeys (newNode u) :=
  List.pairwise_singleton _ _

theorem nodesWF_setdefault (m : NodeMap) (k : String) (h : NodesWF m) :
    NodesWF (setdefaultNode m k) := by
  intro u n hn
  by_cases hu : u = k
  · subst hu
    rw [alistGet_setdefault_self] at hn
    cases h2 : alistGet m u with
    | some n0 =>
      rw [h2] at hn
      simp only [Option.getD, Option.some.injEq] at hn
      exact hn ▸ h u n0 h2
    | none =>
      rw [h2] at hn
      simp only [Option.getD, Option.some.injEq] at hn
      exact hn ▸ nodupKeys_newNode u
  · rw [alistGet_setdefault_ne m k u hu] at hn
    exact h u n hn

theorem nodesWF_alistUpdate (m : NodeMap) (k : String) (f : Attrs → Attrs)
    (hf : ∀ n, NodupKeys n → NodupKeys (f n)) (h : NodesWF m) :
    NodesWF (alistUpdate f m k) := by
  intro u n hn
  by_cases hu : u = k
  · subst hu
    rw [alistGet_alistUpdate_self] at hn
    cases h2 : alistGet m u with
    | some n0 =>
      rw [h2] at hn
      simp only [Option.map, Option.some.injEq] at hn
      exact hn ▸ hf n0 (h u n0 h2)
    | none => rw [h2] at hn; exact absurd hn (by simp)
  · rw [alistGet_alistUpdate_ne f m k u hu] at hn
    exact h u n hn

theorem nodesWF_gtStep (ir : Bool) (fp : Option (List String)) (ig : Bool)
    (st : GTState) (f : Fact) (h : NodesWF st.nodes) :
    NodesWF (gtStep ir fp ig st f).nodes := by
  obtain ⟨s0, p0, o0⟩ := f
  cases o0 with
  | lit v =>
    apply nodesWF_alistUpdate
    · intro n hn; exact nodupKeys_addLit _ _ _ hn
    · exact nodesWF_setdefault _ _ h
  | node u2 =>
    simp only [gtStep]
    by_cases hk : keepEdge ir fp ig (stripBase p0) = true
    · simp only [if_pos hk]
      exact nodesWF_setdefault _ _ (nodesWF_setdefault _ _ h)
    · simp only [if_neg hk]
      exact nodesWF_setdefault _ _ h

theorem nodesWF_gtRun (ir : Bool) (fp : Option (List String)) (ig : Bool)
    (fs : List Fact) : ∀ st : GTState, NodesWF st.nodes →
    NodesWF (gtRun ir fp ig st fs).nodes := by
  induction fs with
  | nil => intro st h; exact h
  | cons f fs ih =>
    intro st h
    exact ih _ (nodesWF_gtStep ir fp ig st f h)

theorem nodesWF_empty : NodesWF [] := by
  intro u n hn
  simp [alistGet] at hn

theorem countP_key_eq_one (d : Attrs) (k v : String)
    (hnd : NodupKeys d) (hget : alistGet d k = some v) :
    d.countP (fun kv => kv.1 == k) = 1 := by
  induction d with
  | nil => simp [alistGet] at hget
  | cons h0 rest ih =>
    obtain ⟨k0, v0⟩ := h0
    rw [NodupKeys, List.pairwise_cons] at hnd
    obtain ⟨hall, hrest⟩ := hnd
    rw [List.countP_cons]
    by_cases hk : k0 = k
    · subst hk
      have hz : rest.countP (fun kv => kv.1 == k0) = 0 :=
        List.countP_eq_zero.mpr fun b hb => by
          simp only [beq_iff_eq]
          exact fun h2 => (hall b hb) h2.symm
      simp [hz]
    · simp only [alistGet, if_neg hk] at hget
      have : ((k0, v0).1 == k) = false := by simp [hk]
      rw [this]
      simp [ih hrest hget]

/-- C4 as stated is false for the reserved attribute name `uri`: a node
record pre-exists with a `uri` attribute, so literal facts whose stripped
predicate is `uri` join *after* the node's uri identity — the accumulated
value is not the join of the literal values alone. -/
theorem C4_counterexample :
    litVals [⟨"A", BASE ++ "uri", Obj.lit "x"⟩,
        ⟨"A", BASE ++ "uri", Obj.lit "y"⟩] "A" "uri" = ["x", "y"]
    ∧ joinSemi ["x", "y"] = "x; y"
    ∧ alistGet (nodeOf (getTriplesState true none false
        [⟨"A", BASE ++ "uri", Obj.lit "x"⟩,
          ⟨"A", BASE ++ "uri", Obj.lit "y"⟩]).nodes "A") "uri"
      = some "A; x; y" :=
  ⟨rfl, rfl, rfl⟩

/-- C4 amended: for every base-stripped predicate other than the reserved
attribute name `uri`, when the fact set contains literal facts for a
(subject, predicate) pair the materialized node carries exactly one
attribute for that predicate, whose value is all literal values joined in
encounter order with separator `"; "`.  (For stripped predicate `uri` the
node's pre-existing uri identity is joined in front, as the counterexample
shows.) -/
theorem C4_amended_literal_join (facts : List Fact) (ir : Bool)
    (fparg : FilterArg) (ig : Bool) (s pred : String)
    (hpred : pred ≠ "uri") (hvals : litVals facts s pred ≠ []) :
    alistGet (nodeOf (getTriplesState ir fparg.norm ig facts).nodes s) pred
        = some (joinSemi (litVals facts s pred))
    ∧ (nodeOf (getTriplesState ir fparg.norm ig facts).nodes s).countP
        (fun kv => kv.1 == pred) = 1 := by
  have hmain : alistGet (nodeOf (getTriplesState ir fparg.norm ig
      facts).nodes s) pred = some (joinSemi (litVals facts s pred)) := by
    rw [getTriplesState, attr_gtRun ir fparg.norm ig s pred hpred facts]
    exact foldl_joinStep_none _ hvals
  refine ⟨hmain, ?_⟩
  have hwf : NodesWF (getTriplesState ir fparg.norm ig facts).nodes :=
    nodesWF_gtRun ir fparg.norm ig facts ⟨[], []⟩ nodesWF_empty
  cases h2 : alistGet (getTriplesState ir fparg.norm ig facts).nodes s with
  | none =>
    exfalso
    rw [nodeOf, h2] at hmain
    simp [alistGet] at hmain
  | some n =>
    have hnd := hwf s n h2
    have hv : alistGet n pred = some (joinSemi (litVals facts s pred)) := by
      rw [nodeOf, h2] at hmain
      exact hmain
    rw [nodeOf, h2]
    exact countP_key_eq_one n pred _ hnd hv

/-- Witness for C4's amended theorem at a two-fact store: the `w`
attribute of node `A` is the join of both values, held exactly once. -/
theorem C4_witness :
    alistGet (nodeOf (getTriplesState true FilterArg.nullF.norm false
        [⟨"A", BASE ++ "w", Obj.lit "x"⟩,
          ⟨"A", BASE ++ "w", Obj.lit "y"⟩]).nodes "A") "w"
        = some (joinSemi (litVals
            [⟨"A", BASE ++ "w", Obj.lit "x"⟩,
              ⟨"A", BASE ++ "w", Obj.lit "y"⟩] "A" "w"))
    ∧ (nodeOf (getTriplesState true FilterArg.nullF.norm false
        [⟨"A", BASE ++ "w", Obj.lit "x"⟩,
          ⟨"A", BASE ++ "w", Obj.lit "y"⟩]).nodes "A").countP
        (fun kv => kv.1 == "w") = 1 :=
  C4_amended_literal_join
    [⟨"A", BASE ++ "w", Obj.lit "x"⟩, ⟨"A", BASE ++ "w", Obj.lit "y"⟩]
    true .nullF false "A" "w" (by decide) (by decide)

/-! ## Lexicon application (C1, C6, C7) -/

theorem exceptMapM_error_of_mem {α β : Type} (f : α → Except String β)
    (l : List α) (x : α) (e0 : String) (hx : x ∈ l)
    (hfx : f x = .error e0) :
    ∃ e, exceptMapM f l = .error e := by
  induction l with
  | nil => exact absurd hx (List.not_mem_nil x)
  | cons a l ih =>
    rcases List.mem_cons.mp hx with heq | htail
    · subst heq
      exact ⟨e0, by simp [exceptMapM, hfx]⟩
    · cases ha : f a with
      | error e => exact ⟨e, by simp [exceptMapM, ha]⟩
      | ok b =>
        obtain ⟨e, he⟩ := ih htail
        exact ⟨e, by simp [exceptMapM, ha, he]⟩

theorem exceptMapM_ok_mem {α β : Type} (f : α → Except String β)
    (l : List α) : ∀ ys : List β, exceptMapM f l = .ok ys →
    ∀ x ∈ l, ∃ y ∈ ys, f x = .ok y := by
  induction l with
  | nil => intro ys h x hx; exact absurd hx (List.not_mem_nil x)
  | cons a l ih =>
    intro ys h x hx
    cases ha : f a with
    | error e => simp [exceptMapM, ha] at h
    | ok b =>
      cases hrec : exceptMapM f l with
      | error e => simp [exceptMapM, ha, hrec] at h
      | ok bs =>
        simp only [exceptMapM, ha, hrec] at h
        injection h with h2
        subst h2
        rcases List.mem_cons.mp hx with heq | htail
        · subst heq
          exact ⟨b, List.mem_cons_self _ _, ha⟩
        · obtain ⟨y, hy, hfy⟩ := ih bs hrec x htail
          exact ⟨y, List.mem_cons_of_mem _ hy, hfy⟩

theorem lexTokenUpdates_mem (lexicon : List LexEntry) (uri : String)
    (token : Attrs) (pos lem : String)
    (hpos : alistGet token "pos" = some pos)
    (hlem : alistGet token "lemma" = some lem)
    (lex : LexEntry) (hlex : lex ∈ lexicon)
    (hposok : lex.pos = none ∨ lex.pos = some pos)
    (target : String) (htarget : target ∈ lex.lemma_.toList)
    (hmatch : lemmaTargetMatches target (pyLower lem) = true) :
    ∃ ups, lexTokenUpdates lexicon uri token = .ok ups
      ∧ lexInsert uri lex.lexclass ∈ ups := by
  refine ⟨_, by rw [lexTokenUpdates, hpos, hlem], ?_⟩
  rw [List.mem_flatMap]
  refine ⟨lex, hlex, ?_⟩
  have hguard : (lex.pos.any fun p => p != pos) = false := by
    rcases hposok with h | h <;> simp [h]
  rw [hguard]
  simp only [Bool.false_eq_true, if_false]
  rw [List.mem_filterMap]
  exact ⟨target, htarget, by rw [hmatch]; simp⟩

/-- C7: if the store contains a token (a subject with at least one literal
attribute, i.e. an entry of `get_tokens`) that lacks a `pos` or `lemma`
attribute, then `apply_lexicon` on a non-empty lexicon raises an error
rather than silently skipping the token. -/
theorem C7_missing_pos_lemma_error (lexicon : List LexEntry)
    (facts : List Fact) (uri : String) (token : Attrs)
    (hlex : lexicon ≠ [])
    (htok : (uri, token) ∈ get_tokens facts)
    (hmiss : alistGet token "pos" = none ∨ alistGet token "lemma" = none) :
    ∃ e, apply_lexicon lexicon facts = .error e := by
  have herr : ∃ e0, lexTokenUpdates lexicon (pyReplace uri BASE ":") token
      = .error e0 := by
    rcases hmiss with h | h
    · exact ⟨"KeyError: pos", by rw [lexTokenUpdates, h]⟩
    · cases hpos : alistGet token "pos" with
      | none => exact ⟨"KeyError: pos", by rw [lexTokenUpdates, hpos]⟩
      | some pos =>
        exact ⟨"KeyError: lemma", by rw [lexTokenUpdates, hpos, h]⟩
  obtain ⟨e0, he0⟩ := herr
  obtain ⟨e, he⟩ := exceptMapM_error_of_mem
    (fun t => lexTokenUpdates lexicon (pyReplace t.1 BASE ":") t.2)
    (get_tokens facts) (uri, token) e0 htok he0
  exact ⟨e, by rw [apply_lexicon, he]⟩

/-- Witness for C7: a token carrying only a `word` attribute makes
`apply_lexicon` raise. -/
theorem C7_witness :
    ∃ e, apply_lexicon [⟨"c", .one "run", none⟩]
        [⟨"t1", BASE ++ "word", Obj.lit "dog"⟩] = .error e :=
  C7_missing_pos_lemma_error [⟨"c", .one "run", none⟩]
    [⟨"t1", BASE ++ "word", Obj.lit "dog"⟩] "t1" [("word", "dog")]
    (by decide) (by decide) (Or.inl rfl)

/-- C6 as stated is false: updates are issued per matching
`(entry, lemma target)` pair, not per matching entry — a single entry whose
lemma list contains two patterns both matching the token's lemma issues two
updates. -/
theorem C6_counterexample :
    apply_lexicon [⟨"c", .many ["run", "run*"], none⟩]
        [⟨"t1", BASE ++ "pos", Obj.lit "V"⟩,
          ⟨"t1", BASE ++ "lemma", Obj.lit "run"⟩]
      = .ok [lexInsert "t1" "c", lexInsert "t1" "c"]
    ∧ ([⟨"c", LemmaSpec.many ["run", "run*"], none⟩] : List LexEntry).length
      = 1 :=
  ⟨rfl, rfl⟩

/-- C6 amended: `apply_lexicon` issues one lexclass-insert update per
matching `(entry, lemma target)` pair; in particular *every* matching
entry applies — not only the first — so each matching entry's insert
string appears among the issued updates, and repeated lexclass inserts
later append via the literal-join rule. -/
theorem C6_amended_all_matches_apply (lexicon : List LexEntry)
    (facts : List Fact) (uri : String) (token : Attrs) (ups : List String)
    (htok : (uri, token) ∈ get_tokens facts)
    (hok : apply_lexicon lexicon facts = .ok ups)
    (pos lem : String)
    (hpos : alistGet token "pos" = some pos)
    (hlem : alistGet token "lemma" = some lem)
    (lex : LexEntry) (hlex : lex ∈ lexicon)
    (hposok : lex.pos = none ∨ lex.pos = some pos)
    (target : String) (htarget : target ∈ lex.lemma_.toList)
    (hmatch : lemmaTargetMatches target (pyLower lem) = true) :
    lexInsert (pyReplace uri BASE ":") lex.lexclass ∈ ups := by
  rw [apply_lexicon] at hok
  cases hm : exceptMapM
      (fun t => lexTokenUpdates lexicon (pyReplace t.1 BASE ":") t.2)
      (get_tokens facts) with
  | error e => rw [hm] at hok; cases hok
  | ok updss =>
    rw [hm] at hok
    injection hok with hok
    obtain ⟨y, hy, hfy⟩ := exceptMapM_ok_mem _ _ updss hm (uri, token) htok
    obtain ⟨ups1, hups1, hmem⟩ := lexTokenUpdates_mem lexicon
      (pyReplace uri BASE ":") token pos lem hpos hlem lex hlex hposok
      target htarget hmatch
    rw [hups1] at hfy
    injection hfy with hfy
    rw [← hok]
    rw [List.mem_flatten]
    exact ⟨y, hy, hfy ▸ hmem⟩

/-- Witness for C6's amended theorem: two entries both match lemma `run`;
the second entry's insert is among the issued updates. -/
theorem C6_witness :
    lexInsert (pyReplace "t1" BASE ":") "c2"
      ∈ ["t1 :lexclass \"c1\"", "t1 :lexclass \"c2\""] :=
  C6_amended_all_matches_apply
    [⟨"c1", .one "run", none⟩, ⟨"c2", .one "run*", none⟩]
    [⟨"t1", BASE ++ "pos", Obj.lit "V"⟩,
      ⟨"t1", BASE ++ "lemma", Obj.lit "run"⟩]
    "t1" [("pos", "V"), ("lemma", "run")]
    ["t1 :lexclass \"c1\"", "t1 :lexclass \"c2\""]
    (by decide) rfl "V" "run" rfl rfl
    ⟨"c2", .one "run*", none⟩ (by decide) (Or.inl rfl)
    "run*" (by decide) (by decide)

/-- C1 as stated is false: only the token's lemma is lowercased; the
entry's lemma is compared verbatim.  Entry lemma `RUN` equals token lemma
`Run` up to case, yet no update is issued. -/
theorem C1_counterexample :
    pyLower "RUN" = pyLower "Run"
    ∧ apply_lexicon [⟨"x", .one "RUN", none⟩]
        [⟨"t1", BASE ++ "pos", Obj.lit "V"⟩,
          ⟨"t1", BASE ++ "lemma", Obj.lit "Run"⟩]
      = .ok [] :=
  ⟨rfl, rfl⟩

/-- C1 amended: matching lowercases the token's lemma only.  For a
one-entry lexicon and a one-token store, an update is issued exactly when
the entry's lemma (verbatim) equals the lowercased token lemma, or the
entry's lemma ends in `*` and its stem starts the lowercased token lemma;
in particular entry lemma `run*` matches token lemma `running`. -/
theorem C1_amended_lexicon_match :
    (∀ c t p lem u : String,
      apply_lexicon [⟨c, .one t, none⟩]
          [⟨u, BASE ++ "pos", Obj.lit p⟩, ⟨u, BASE ++ "lemma", Obj.lit lem⟩]
        = .ok (if specTokenLowerMatch t lem then
            [lexInsert (pyReplace u BASE ":") c] else []))
    ∧ specTokenLowerMatch "run*" "running" = true := by
  constructor
  · intro c t p lem u
    have hsp : stripBase (BASE ++ "pos") = "pos" := rfl
    have hsl : stripBase (BASE ++ "lemma") = "lemma" := rfl
    have htok : get_tokens
        [⟨u, BASE ++ "pos", Obj.lit p⟩, ⟨u, BASE ++ "lemma", Obj.lit lem⟩]
        = [(u, [("pos", p), ("lemma", lem)])] := by
      simp [get_tokens, hsp, hsl, alistGet, alistSet]
    by_cases hm : lemmaTargetMatches t (pyLower lem) = true
    · have hspec : specTokenLowerMatch t lem = true := hm
      simp [apply_lexicon, htok, exceptMapM, lexTokenUpdates, alistGet,
        LemmaSpec.toList, hm, hspec]
    · have hm2 : lemmaTargetMatches t (pyLower lem) = false := by
        simpa using hm
      have hspec : specTokenLowerMatch t lem = false := hm2
      simp [apply_lexicon, htok, exceptMapM, lexTokenUpdates, alistGet,
        LemmaSpec.toList, hm2, hspec]
  · rfl

/-! ## SAF conversion (C8, C10) -/

theorem safDepFacts_total (tokMap : List (Int × String)) (deps : List SafDep)
    (h : ∀ d ∈ deps, (alistGet tokMap d.child).isSome →
        (alistGet tokMap d.parent).isSome) :
    safDepFacts tokMap deps
      = .ok ((deps.filter fun d =>
            (alistGet tokMap d.child).isSome
              && (alistGet tokMap d.parent).isSome).flatMap
          fun d =>
            [⟨(alistGet tokMap d.child).getD "",
                BASE ++ "rel_" ++ d.relation,
                Obj.node ((alistGet tokMap d.parent).getD "")⟩,
              ⟨(alistGet tokMap d.child).getD "", BASE ++ "rel",
                Obj.node ((alistGet tokMap d.parent).getD "")⟩]) := by
  induction deps with
  | nil => rfl
  | cons d ds ih =>
    have hd := h d (List.mem_cons_self _ _)
    have hds := fun x hx => h x (List.mem_cons_of_mem _ hx)
    cases hc : alistGet tokMap d.child with
    | none =>
      simp only [safDepFacts, hc]
      rw [ih hds]
      simp [List.filter_cons, hc]
    | some child =>
      have hps : (alistGet tokMap d.parent).isSome := hd (by simp [hc])
      cases hpar : alistGet tokMap d.parent with
      | none => rw [hpar] at hps; exact absurd hps (by simp)
      | some parent =>
        simp only [safDepFacts, hc, hpar]
        rw [ih hds]
        simp [List.filter_cons, hc, hpar]

/-- C8: for every SAF article and sentence id — provided every dependency
whose child token is in the selected sentence also has a resolvable
parent, so the conversion does not raise (see C10) — `_saf_to_rdf` yields
exactly one literal fact per attribute of each token whose `sentence`
field equals the sentence id, followed by exactly two relation facts per
dependency between tokens of that sentence: first the relation-specific
`rel_{relation}` fact, then the generic `rel` fact, both from the child
token's URI to the parent token's URI. -/
theorem C8_saf_conversion_shape (translit : String → String)
    (art : SafArticle) (sid : Int)
    (h : ∀ d ∈ art.dependencies,
        (alistGet (safTokenMap translit (safSelect art sid)) d.child).isSome →
        (alistGet (safTokenMap translit (safSelect art sid))
          d.parent).isSome) :
    saf_to_rdf translit art sid
      = .ok (specSafLitFacts translit art sid
          ++ specSafRelFacts translit art sid) := by
  unfold saf_to_rdf
  rw [safDepFacts_total _ _ h]
  rfl

/-- Witness for C8 on a two-token sentence with one dependency. -/
theorem C8_witness :
    saf_to_rdf id
        ⟨[⟨1, 1, "dog", [("id", "1"), ("lemma", "dog")]⟩,
            ⟨2, 1, "bark", [("id", "2"), ("lemma", "bark")]⟩],
          [⟨1, 2, "nsubj"⟩]⟩ 1
      = .ok (specSafLitFacts id
            ⟨[⟨1, 1, "dog", [("id", "1"), ("lemma", "dog")]⟩,
                ⟨2, 1, "bark", [("id", "2"), ("lemma", "bark")]⟩],
              [⟨1, 2, "nsubj"⟩]⟩ 1
          ++ specSafRelFacts id
            ⟨[⟨1, 1, "dog", [("id", "1"), ("lemma", "dog")]⟩,
                ⟨2, 1, "bark", [("id", "2"), ("lemma", "bark")]⟩],
              [⟨1, 2, "nsubj"⟩]⟩ 1) :=
  C8_saf_conversion_shape id
    ⟨[⟨1, 1, "dog", [("id", "1"), ("lemma", "dog")]⟩,
        ⟨2, 1, "bark", [("id", "2"), ("lemma", "bark")]⟩],
      [⟨1, 2, "nsubj"⟩]⟩ 1 (by decide)

theorem safDepFacts_error (tokMap : List (Int × String)) (deps : List SafDep)
    (d : SafDep) (hd : d ∈ deps)
    (hc : (alistGet tokMap d.child).isSome = true)
    (hp : alistGet tokMap d.parent = none) :
    ∃ e, safDepFacts tokMap deps = .error e := by
  induction deps with
  | nil => exact absurd hd (List.not_mem_nil d)
  | cons d0 ds ih =>
    rcases List.mem_cons.mp hd with heq | htail
    · subst heq
      cases hc2 : alistGet tokMap d.child with
      | none => rw [hc2] at hc; simp at hc
      | some child =>
        exact ⟨"KeyError: " ++ toString d.parent,
          by simp only [safDepFacts, hc2, hp]⟩
    · cases hc0 : alistGet tokMap d0.child with
      | none =>
        obtain ⟨e, he⟩ := ih htail
        exact ⟨e, by simp only [safDepFacts, hc0]; exact he⟩
      | some c0 =>
        cases hp0 : alistGet tokMap d0.parent with
        | none =>
          exact ⟨"KeyError: " ++ toString d0.parent,
            by simp only [safDepFacts, hc0, hp0]⟩
        | some p0 =>
          obtain ⟨e, he⟩ := ih htail
          exact ⟨e, by simp only [safDepFacts, hc0, hp0, he]⟩

/-- C10: `_saf_to_rdf` filters dependencies by child membership only — a
dependency whose child token is in the selected sentence but whose parent
token is not makes the conversion raise a lookup error when resolving the
parent's URI, instead of skipping the dependency. -/
theorem C10_parent_lookup_error (translit : String → String)
    (art : SafArticle) (sid : Int) (d : SafDep)
    (hd : d ∈ art.dependencies)
    (hc : (alistGet (safTokenMap translit (safSelect art sid))
        d.child).isSome = true)
    (hp : alistGet (safTokenMap translit (safSelect art sid))
        d.parent = none) :
    ∃ e, saf_to_rdf translit art sid = .error e := by
  obtain ⟨e, he⟩ := safDepFacts_error _ _ d hd hc hp
  exact ⟨e, by unfold saf_to_rdf; rw [he]⟩

/-- Witness for C10: a dependency pointing to a parent outside the
selected sentence raises. -/
theorem C10_witness :
    ∃ e, saf_to_rdf id
        ⟨[⟨1, 1, "dog", [("id", "1")]⟩], [⟨1, 2, "nsubj"⟩]⟩ 1
      = .error e :=
  C10_parent_lookup_error id
    ⟨[⟨1, 1, "dog", [("id", "1")]⟩], [⟨1, 2, "nsubj"⟩]⟩ 1
    ⟨1, 2, "nsubj"⟩ (by decide) (by decide) (by decide)
